import Mathlib

/-!
# HashSum: a shallow embedding of `hashsum.c`

`hashsum [-i ignoreprefix] <directory>` lists a directory with `ls -1a`, and
for every listed name that does not match the ignore prefix runs `md5sum` and
then `file -b` on `<directory>/<name>`, printing `name hash type`.

Conventions of the embedding.

* A `char` is the integer it is promoted to in a C expression (`Int`), so the
  development does not depend on whether `char` is signed.
* A C string is the list of its characters in front of the terminating NUL.
* A fixed `char x[BUFLEN] = ""` array is a list of `BUFLEN` characters.
* A read of an array behind its last element is modelled as reading NUL;
  a write behind it, and a read of `fileNames` behind its terminating NUL, end
  the run as undefined.
* The external world (what `fork`, `wait`, `read` and the three tools do) is
  an explicit argument. Allocation always succeeds and `int` counters stay in
  range, which holds for listings below 2 GiB.
* The parent never closes the write end of a pipe, so a `read` from a pipe
  that holds no byte does not return. A child that cannot terminate, for one
  because it waits for room in a pipe that the waiting parent does not read,
  is the world `Wait.never`.
-/

namespace HashSum

/-! ## Constants and C strings -/

/-- The `#define BUFLEN 200` of the source. -/
def BUFLEN : Nat := 200

/-- The value of `EXIT_SUCCESS`. -/
def EXIT_SUCCESS : Nat := 0

/-- The value of `EXIT_FAILURE`. -/
def EXIT_FAILURE : Nat := 1

/-- The string stored in a character array: everything in front of the first NUL. -/
def cstr : List Int → List Int
  | [] => []
  | c :: cs => if c = 0 then [] else c :: cstr cs

/-- A zero-initialised array of `n` characters (`char x[n] = ""`). -/
def zeros (n : Nat) : List Int := List.replicate n 0

/-- A `BUFLEN` array, zero-initialised, after `data` was stored at its front. -/
def inBuffer (data : List Int) : List Int := data ++ zeros (BUFLEN - data.length)

/-! ## `prefixDiff` -/

/-- The `for` loop of `prefixDiff`: `rest` is what is left of `ignorePrefix` from
index `i` on, `diff` the running counter. A read of `fileName` behind the end of
the array is modelled as reading NUL. -/
def prefixDiffLoop (fileName : List Int) : List Int → Nat → Int → Int
  | [], _, diff => diff
  | p :: rest, i, diff =>
    if p = 0 then diff
    else if p ≠ fileName.getD i 0 ∧ p + 32 ≠ fileName.getD i 0 ∧ p ≠ fileName.getD i 0 + 32 then
      prefixDiffLoop fileName rest (i + 1) (diff + 1)
    else
      prefixDiffLoop fileName rest (i + 1) diff

/-- The function `prefixDiff`; `ignorePrefix = none` is the NULL pointer. -/
def prefixDiff (ignorePrefix : Option (List Int)) (fileName : List Int) : Int :=
  match ignorePrefix with
  | none => -1
  | some p => prefixDiffLoop fileName p 0 0

/-! ## Wait statuses -/

/-- The macro `WEXITSTATUS(status)`: bits 8 to 15 of the wait status. -/
def WEXITSTATUS (status : Nat) : Nat := (status / 256) % 256

/-- The macro `WTERMSIG(status)`: the low seven bits of the wait status. -/
def WTERMSIG (status : Nat) : Nat := status % 128

/-- The test every stage applies after `wait`: `WEXITSTATUS(status) == EXIT_SUCCESS`.
When it fails, `main` calls `usage` (listing stage) or takes `continue`. -/
def stageSucceeded (status : Nat) : Bool := WEXITSTATUS status == EXIT_SUCCESS

/-! ## `getFileNames` -/

/-- What one call of `read` returned. -/
inductive ReadResult where
  /-- The call returned `-1`. -/
  | failed
  /-- The call returned `chunk.length` and stored `chunk`. -/
  | bytes (chunk : List Int)
  deriving DecidableEq, Repr

/-- The global `fileNames` together with the local `size_fN`. -/
structure Listing where
  /-- The string held in `fileNames`. -/
  fileNames : List Int
  /-- The number of bytes allocated for `fileNames`. -/
  size_fN : Nat
  deriving DecidableEq, Repr

/-- How one pass through the body of the `do ... while` loop ends. -/
inductive Pass where
  /-- The read filled the buffer: the loop condition holds. -/
  | again (st : Listing)
  /-- The read was short: the loop is left. -/
  | stop (st : Listing)
  /-- The read failed: `exit_error`. -/
  | readError
  /-- The `strcat` would write behind the end of `fileNames`. -/
  | overflow
  deriving DecidableEq, Repr

/-- One pass through the body of the `do ... while` loop of `getFileNames`. -/
def getFileNamesPass (st : Listing) : ReadResult → Pass
  | .failed => .readError
  | .bytes chunk =>
    let buffer := inBuffer chunk
    if st.fileNames.length + (cstr buffer).length + 1 ≤ st.size_fN then
      let appended := st.fileNames ++ cstr buffer
      if chunk.length = BUFLEN - 1 then
        .again ⟨appended, st.size_fN + BUFLEN⟩
      else
        .stop ⟨appended, st.size_fN⟩
    else .overflow

/-- How `getFileNames` ends. -/
inductive Drain where
  /-- The loop was left; `unread` are the read results not asked for. -/
  | done (st : Listing) (unread : List ReadResult)
  /-- A read failed: `exit_error`. -/
  | readError
  /-- A `strcat` would write behind the end of `fileNames`. -/
  | overflow
  /-- The loop asked for a read the world never answers. -/
  | blocked (st : Listing)
  deriving DecidableEq, Repr

/-- The `do ... while` loop of `getFileNames` over the results of the successive
`read` calls. -/
def getFileNamesLoop : Listing → List ReadResult → Drain
  | st, [] => .blocked st
  | st, r :: rs =>
    match getFileNamesPass st r with
    | .again st' => getFileNamesLoop st' rs
    | .stop st' => .done st' rs
    | .readError => .readError
    | .overflow => .overflow

/-- The function `getFileNames`: `calloc(BUFLEN, 1)` and then the loop. -/
def getFileNames (reads : List ReadResult) : Drain :=
  getFileNamesLoop ⟨[], BUFLEN⟩ reads

/-- The reads of what is left of the bytes `out` in a pipe whose write end stays
open, as `pipe_ls[1]` does in the parent: each read delivers the next
`BUFLEN - 1` bytes, or all that is left when that is less, and there is no
further read result: a read from the emptied pipe does not return. The first
argument bounds the number of reads; `out.length` is enough. -/
def pipeReadsFrom : Nat → List Int → List ReadResult
  | 0, _ => []
  | fuel + 1, out =>
    if out = [] then []
    else .bytes (out.take (BUFLEN - 1)) :: pipeReadsFrom fuel (out.drop (BUFLEN - 1))

/-- The results of the reads from `pipe_ls[0]` in the program as it is, when the
child wrote `out` and has terminated. -/
def pipeReads (out : List Int) : List ReadResult := pipeReadsFrom out.length out

/-- The reads of what is left of a stream, `out`, in the read model with an end of
stream: as `pipeReadsFrom`, and the read at the end of the stream delivers 0
bytes, which a pipe does once every write end is closed. The program never
closes `pipe_ls[1]`, so this is not the pipe of `main`; see `pipeReads`. -/
def streamReadsFrom : Nat → List Int → List ReadResult
  | 0, _ => [.bytes []]
  | fuel + 1, out =>
    if out = [] then [.bytes []]
    else .bytes (out.take (BUFLEN - 1)) :: streamReadsFrom fuel (out.drop (BUFLEN - 1))

/-- The results of the reads of the stream `out` in the read model with an end of
stream, up to the first read at the end of the stream. -/
def streamReads (out : List Int) : List ReadResult := streamReadsFrom out.length out

/-! ## The world outside the program -/

/-- What a `fork` followed, in the parent, by `wait(&status)` comes to. -/
inductive Wait where
  /-- The call of `fork` returned a negative value. -/
  | forkFailed
  /-- The call of `wait` returned `-1`. -/
  | waitFailed
  /-- The child terminated and `wait` stored `status`. -/
  | status (status : Nat)
  /-- The child does not terminate and `wait` does not return. -/
  | never
  deriving DecidableEq, Repr

/-- The three external tools of one run. A tool is given by how its child process
ends and by the bytes the child wrote to its standard output, which `dup2` made
the write end of the stage's pipe. -/
structure World where
  /-- The child running `ls -1a directory`. -/
  ls : Wait
  /-- The results of the successive reads from `pipe_ls[0]`. -/
  lsReads : List ReadResult
  /-- The child running `md5sum path`, by path. -/
  md5sum : List Int → Wait × List Int
  /-- The child running `file -b path`, by path. -/
  file : List Int → Wait × List Int

/-- A stage run inside the per-file loop, with the path it was given. -/
inductive Stage where
  /-- The stage `md5sum path`. -/
  | md5sum (path : List Int)
  /-- The stage `file -b path`. -/
  | file (path : List Int)
  deriving DecidableEq, Repr

/-- What the per-file loop changes: the two pipes created once by `createPipes`,
the standard output, and a record of the stages that were run. -/
structure State where
  /-- The bytes written to `pipe_md5` and not read yet. -/
  pipe_md5 : List Int
  /-- The bytes written to `pipe_file` and not read yet. -/
  pipe_file : List Int
  /-- The bytes written to standard output. -/
  stdout : List Int
  /-- The stages run so far, oldest first. -/
  stages : List Stage
  deriving DecidableEq, Repr

/-- Why a run stops before the end of `main`. -/
inductive Halt where
  /-- The call `exit_error(EXIT_FAILURE, msg)`. -/
  | exitError (msg : String)
  /-- A `read` from a pipe that holds no byte while the parent keeps its write end
  open, or a `wait` for a child that does not terminate. -/
  | blocked
  /-- An access outside an array. -/
  | undefined
  /-- The loop did not end within the given number of iterations. -/
  | outOfFuel
  deriving DecidableEq, Repr

/-- How one pass through the body of a loop ends. -/
inductive Step (σ : Type) where
  /-- The body reached its end or took `continue`. -/
  | next (s : σ)
  /-- The program stopped. -/
  | halt (h : Halt) (s : σ)
  deriving DecidableEq, Repr

/-- How the per-file loop ends. -/
inductive LoopEnd (σ : Type) where
  /-- The loop condition `fileNames[i] != 0` failed at index `i`. -/
  | finished (i : Nat) (s : σ)
  /-- The program stopped inside the loop. -/
  | halted (h : Halt) (s : σ)
  deriving DecidableEq, Repr

/-- One `read(pipe[0], buf, count)` from a pipe whose writers have all finished
writing: it returns what is there, at most `count` bytes; on an empty pipe it
does not return. The result is the bytes read and the bytes left. -/
def readPipe (pipe : List Int) (count : Nat) : Option (List Int × List Int) :=
  if pipe = [] then none else some (pipe.take count, pipe.drop count)

/-! ## The helpers of the per-file loop -/

/-- The function `getFilePath`: `strcpy(filePath, directory)`, `strcat(filePath, "/")`,
`strcat(filePath, fileName)` into `char filePath[BUFLEN]`. -/
def getFilePath (directory fileName : List Int) : Option (List Int) :=
  let path := directory ++ [47] ++ cstr fileName
  if path.length + 1 ≤ BUFLEN then some (inBuffer path) else none

/-- The `for` loop of `getMD5hash`: the characters of `temp` in front of the first
NUL or space. -/
def copyHash : List Int → List Int
  | [] => []
  | c :: cs => if c ≠ 0 ∧ c ≠ 32 then c :: copyHash cs else []

/-- The function `getMD5hash`: one read of at most `BUFLEN - 1` bytes into the
zeroed `temp`, copied up to the first space into the zeroed `hashBuffer`. The
result is `hashBuffer` and what is left in the pipe. -/
def getMD5hash (pipe_md5 : List Int) : Option (List Int × List Int) :=
  match readPipe pipe_md5 (BUFLEN - 1) with
  | none => none
  | some (chunk, left) => some (inBuffer (copyHash (inBuffer chunk)), left)

/-- The function `getFileType`: one read of at most `BUFLEN - 1` bytes into the
zeroed `typeBuffer`. The result is `typeBuffer` and what is left in the pipe. -/
def getFileType (pipe_file : List Int) : Option (List Int × List Int) :=
  match readPipe pipe_file (BUFLEN - 1) with
  | none => none
  | some (chunk, left) => some (inBuffer chunk, left)

/-- The call `printf("%s %s %s", fileName, hash, fileType)`. -/
def printLine (fileName hash fileType : List Int) : List Int :=
  cstr fileName ++ [32] ++ cstr hash ++ [32] ++ cstr fileType

/-! ## The per-file loop of `main` -/

/-- The value of `fileNames[i]`: a character of the string, the terminating NUL,
or nothing defined behind it. -/
def charAt (fileNames : List Int) (i : Nat) : Option Int :=
  if i < fileNames.length then some (fileNames.getD i 0)
  else if i = fileNames.length then some 0
  else none

/-- The inner loop `for(int j = 0; fileNames[i] != 10; j++, i++) fileName[j] = fileNames[i];`.
The result is the index of the newline and the array `fileName`; there is none
when the loop leaves the string or the array. -/
def copyName (fileNames : List Int) : Nat → Nat → Nat → List Int → Option (Nat × List Int)
  | 0, _, _, _ => none
  | fuel + 1, i, j, fileName =>
    match charAt fileNames i with
    | none => none
    | some c =>
      if c = 10 then some (i, fileName)
      else if j < BUFLEN then copyName fileNames fuel (i + 1) (j + 1) (fileName.set j c)
      else none

/-- The outer loop `for(int i = 0; fileNames[i] != 0; i++)` of `main` around an
arbitrary body, which is given the array `fileName` filled by the inner loop. The
increment `i++` is run after the body whether it ended or took `continue`. -/
def forEachName {σ : Type} (body : List Int → σ → Step σ) (fileNames : List Int) :
    Nat → Nat → σ → LoopEnd σ
  | 0, _, s => .halted .outOfFuel s
  | fuel + 1, i, s =>
    match charAt fileNames i with
    | none => .halted .undefined s
    | some c =>
      if c = 0 then .finished i s
      else
        match copyName fileNames (fileNames.length + 2) i 0 (zeros BUFLEN) with
        | none => .halted .undefined s
        | some (i', fileName) =>
          match body fileName s with
          | .halt h s' => .halted h s'
          | .next s' => forEachName body fileNames fuel (i' + 1) s'

/-- The classification stage and the output line: the body of the per-file loop
from `pid_t pid_file = fork()` on. -/
def classify (w : World) (fileName filePath hash : List Int) (st : State) : Step State :=
  match w.file (cstr filePath) with
  | (.forkFailed, _) => .halt (.exitError "Failed to create child process (file)") st
  | (.waitFailed, _) => .halt (.exitError "Child (file) could not be terminated") st
  | (.never, _) => .halt .blocked st
  | (.status status, written) =>
    let st1 : State := { st with pipe_file := st.pipe_file ++ written,
                                 stages := st.stages ++ [.file (cstr filePath)] }
    if stageSucceeded status then
      match getFileType st1.pipe_file with
      | none => .halt .blocked st1
      | some (fileType, left) =>
        .next { st1 with pipe_file := left,
                         stdout := st1.stdout ++ printLine fileName hash fileType }
    else .next st1

/-- The body of the per-file loop from `getFilePath(fileName, filePath)` on: the
hashing stage, then `classify`. -/
def processFile (w : World) (directory fileName : List Int) (st : State) : Step State :=
  match getFilePath directory fileName with
  | none => .halt .undefined st
  | some filePath =>
    match w.md5sum (cstr filePath) with
    | (.forkFailed, _) => .halt (.exitError "Failed to create child process (md5sum)") st
    | (.waitFailed, _) => .halt (.exitError "Child (md5sum) could not be terminated") st
    | (.never, _) => .halt .blocked st
    | (.status status, written) =>
      let st1 : State := { st with pipe_md5 := st.pipe_md5 ++ written,
                                   stages := st.stages ++ [.md5sum (cstr filePath)] }
      if stageSucceeded status then
        match getMD5hash st1.pipe_md5 with
        | none => .halt .blocked st1
        | some (hash, left) => classify w fileName filePath hash { st1 with pipe_md5 := left }
      else .next st1

/-- The body of the per-file loop behind the inner loop: the `continue` on
`0 == prefixDiff(fileName)`, then `processFile`. -/
def loopBody (w : World) (ignorePrefix : Option (List Int)) (directory fileName : List Int)
    (st : State) : Step State :=
  if prefixDiff ignorePrefix fileName = 0 then .next st
  else processFile w directory fileName st

/-! ## `main` -/

/-- A message on standard error. -/
inductive Diag where
  /-- The usage message printed by `usage`. -/
  | usage
  /-- The message `msg` printed by `exit_error`. -/
  | error (msg : String)
  deriving DecidableEq, Repr

/-- How a run ends. -/
inductive Ending where
  /-- The process exits with `code`. -/
  | exit (code : Nat)
  /-- The process waits for ever in a `read` or a `wait`. -/
  | blocked
  /-- The run left the defined behaviour of C (an access outside an array, or
  `free` of a pointer already freed, on which glibc aborts the process), or the
  model ran out of fuel. -/
  | undefined
  deriving DecidableEq, Repr

/-- What can be observed of a run of `main`. -/
structure Run where
  /-- The bytes written to standard output. -/
  stdout : List Int
  /-- The messages written to standard error. -/
  stderr : List Diag
  /-- The hashing and classification stages that were run, oldest first. -/
  stages : List Stage
  /-- How the process ended. -/
  ending : Ending
  deriving DecidableEq, Repr

/-- The function `exit_error(EXIT_FAILURE, msg)` as seen from outside: `cleanup`,
the message, `cleanup` again, `exit`. The function `cleanup` is `free(fileNames)`
and leaves the pointer as it is, so once `getFileNames` has allocated `fileNames`
(`allocated`) the second `cleanup` frees it a second time and the `exit` is not
reached; while `fileNames` is NULL both calls do nothing. The text of `errno`
is left out of the message. -/
def exit_error (allocated : Bool) (st : State) (msg : String) : Run :=
  ⟨st.stdout, [.error msg], st.stages, if allocated then .undefined else .exit EXIT_FAILURE⟩

/-- The function `usage` as seen from outside: the message, one `cleanup`, `exit`.
In the parent `main` calls it only while `fileNames` is NULL. -/
def usage (st : State) : Run :=
  ⟨st.stdout, [.usage], st.stages, .exit EXIT_FAILURE⟩

/-- A run stopped by `h` in state `st`, behind `getFileNames`: `fileNames` is
allocated. -/
def halted (h : Halt) (st : State) : Run :=
  match h with
  | .exitError msg => exit_error true st msg
  | .blocked => ⟨st.stdout, [], st.stages, .blocked⟩
  | .undefined => ⟨st.stdout, [], st.stages, .undefined⟩
  | .outOfFuel => ⟨st.stdout, [], st.stages, .undefined⟩

/-- The function `main` behind `parseArg` and `createPipes`, in the parent process. -/
def main (w : World) (ignorePrefix : Option (List Int)) (directory : List Int) : Run :=
  let st0 : State := ⟨[], [], [], []⟩
  match w.ls with
  | .forkFailed => exit_error false st0 "Failed to create child process (ls)"
  | .waitFailed => exit_error false st0 "Child (ls) could not be terminated"
  | .never => halted .blocked st0
  | .status status =>
    if stageSucceeded status then
      match getFileNames w.lsReads with
      | .readError => exit_error true st0 "Failed to read ls output"
      | .overflow => halted .undefined st0
      | .blocked _ => halted .blocked st0
      | .done listing _ =>
        match forEachName (loopBody w ignorePrefix directory) listing.fileNames
            (listing.fileNames.length + 1) 0 st0 with
        | .finished _ st => ⟨st.stdout, [], st.stages, .exit EXIT_SUCCESS⟩
        | .halted h st => halted h st
    else usage st0

/-! ## The specification's notions, for comparison -/

/-- ASCII lower case of a character: the 26 capital letters are moved by 32. -/
def asciiLower (c : Int) : Int := if 65 ≤ c ∧ c ≤ 90 then c + 32 else c

/-- Equality of two strings under ASCII case-insensitive comparison. -/
def asciiCaseInsensitiveEq (a b : List Int) : Prop := a.map asciiLower = b.map asciiLower

instance (a b : List Int) : Decidable (asciiCaseInsensitiveEq a b) := by
  unfold asciiCaseInsensitiveEq; infer_instance

/-- The bodies run on the given `fileName` arrays, one after the other, each once,
until one of them stops the program. -/
def eachInOrder {σ : Type} (body : List Int → σ → Step σ) : List (List Int) → σ → Step σ
  | [], s => .next s
  | fileName :: rest, s =>
    match body fileName s with
    | .next s' => eachInOrder body rest s'
    | .halt h s' => .halt h s'

/-- The listing buffer made of `entries`, each followed by a newline. -/
def listingOf (entries : List (List Int)) : List Int :=
  (entries.map (· ++ [10])).flatten

/-- A child that exited normally with exit code 0. -/
def exitedWithZero (child : Wait) : Bool := child == .status 0

/-- The output line the specification gives for `name`: the name, the hashing
output up to its first space, and the classification output as returned,
separated by single spaces. -/
def specLine (w : World) (directory name : List Int) : List Int :=
  name ++ [32] ++ (w.md5sum (directory ++ [47] ++ name)).2.takeWhile (· ≠ 32) ++ [32] ++
    (w.file (directory ++ [47] ++ name)).2

/-- The standard output the specification gives for the listed `names`: the lines,
in listing order, of the names that the filter lets pass and for which the hashing
and the classification stage both exit with code 0. -/
def specOutput (w : World) (ignorePrefix : Option (List Int)) (directory : List Int)
    (names : List (List Int)) : List Int :=
  ((names.filter fun name =>
      decide (prefixDiff ignorePrefix (inBuffer name) ≠ 0) &&
        exitedWithZero (w.md5sum (directory ++ [47] ++ name)).1 &&
        exitedWithZero (w.file (directory ++ [47] ++ name)).1).map
    (specLine w directory)).flatten

/-! ## Example worlds -/

/-- A directory whose name has 163 characters `d`. -/
def longDirectory : List Int := List.replicate 163 100

/-- A world in which `ls` lists `a` and `b`, `md5sum path` prints 32 digits `0`,
two spaces, the path and a newline, and `file -b path` prints `data` and a
newline; every child exits with code 0. -/
def longPathWorld : World where
  ls := .status 0
  lsReads := [.bytes [97, 10, 98, 10]]
  md5sum := fun path => (.status 0, List.replicate 32 48 ++ [32, 32] ++ path ++ [10])
  file := fun _ => (.status 0, [100, 97, 116, 97, 10])

/-- A world in which the child running `md5sum` has written `h` and a space when
signal 9 terminates it, and `file -b` prints `t` and a newline and exits with
code 0. -/
def killedWorld : World where
  ls := .status 0
  lsReads := [.bytes [97, 10]]
  md5sum := fun _ => (.status 9, [104, 32])
  file := fun _ => (.status 0, [116, 10])

/-- A listing of 199 bytes, as `ls -1a` prints it for a directory with two files:
the entries `.` and `..`, a name of 191 characters `a` and the name `b`, each
followed by a newline. -/
def alignedListing : List Int := [46, 10, 46, 46, 10] ++ List.replicate 191 97 ++ [10, 98, 10]

/-- A world in which `ls` exits with code 0 and has written `alignedListing` to
`pipe_ls`, `md5sum` prints `h`, two spaces, `p` and a newline, and `file -b`
prints `t` and a newline; every child exits with code 0. -/
def alignedWorld : World where
  ls := .status 0
  lsReads := pipeReads alignedListing
  md5sum := fun _ => (.status 0, [104, 32, 32, 112, 10])
  file := fun _ => (.status 0, [116, 10])

/-- A world in which signal 9 terminates the child running `md5sum` before it has
written a byte. -/
def silentKillWorld : World where
  ls := .status 0
  lsReads := [.bytes [97, 10]]
  md5sum := fun _ => (.status 9, [])
  file := fun _ => (.status 0, [116, 10])

/-- A world in which `ls` lists `a` and `b`, `md5sum` prints `h`, two spaces, `p`
and a newline, and `file -b` prints `E` and a newline and exits with code 1 for
the path `d/a`, and prints `t` and a newline and exits with code 0 otherwise. -/
def noisyFailureWorld : World where
  ls := .status 0
  lsReads := [.bytes [97, 10, 98, 10]]
  md5sum := fun _ => (.status 0, [104, 32, 32, 112, 10])
  file := fun path => if path = [100, 47, 97] then (.status 256, [69, 10]) else (.status 0, [116, 10])

/-! ## Predicates used in the statements -/

/-- No character of `l` is NUL. -/
def nulFree (l : List Int) : Prop := ∀ c ∈ l, c ≠ 0

instance (l : List Int) : Decidable (nulFree l) := by
  unfold nulFree; infer_instance

/-- The conditions on a listed name under which its pass through the per-file
body leaves no byte in a pipe: the path fits `filePath`; each of the two tools
exits with a code, writes nothing when the code is not 0, and otherwise writes a
NUL-free output of at least 1 and at most `BUFLEN - 1` bytes. -/
structure Tidy (w : World) (directory name : List Int) : Prop where
  /-- The path and its terminating NUL fit `filePath`. -/
  fits : (directory ++ [47] ++ name).length < BUFLEN
  /-- The hashing tool. -/
  md5sum : ∃ code out, w.md5sum (directory ++ [47] ++ name) = (.status (256 * code), out) ∧
    code < 256 ∧ (code = 0 → out ≠ [] ∧ out.length ≤ BUFLEN - 1 ∧ nulFree out) ∧
    (code ≠ 0 → out = [])
  /-- The classification tool. -/
  file : ∃ code out, w.file (directory ++ [47] ++ name) = (.status (256 * code), out) ∧
    code < 256 ∧ (code = 0 → out ≠ [] ∧ out.length ≤ BUFLEN - 1 ∧ nulFree out) ∧
    (code ≠ 0 → out = [])

/-! ## Facts about C strings -/

theorem cstr_zeros (n : Nat) : cstr (zeros n) = [] := by
  cases n <;> simp [zeros, cstr, List.replicate_succ]

theorem cstr_append_zeros (l : List Int) (n : Nat) (h : nulFree l) :
    cstr (l ++ zeros n) = l := by
  induction l with
  | nil => simpa using cstr_zeros n
  | cons c cs ih =>
    have hc : c ≠ 0 := h c (by simp)
    have hcs : nulFree cs := fun x hx => h x (by simp [hx])
    simp [cstr, hc, ih hcs]

theorem cstr_inBuffer (l : List Int) (h : nulFree l) : cstr (inBuffer l) = l :=
  cstr_append_zeros l _ h

theorem cstr_append_length_le (l : List Int) (n : Nat) :
    (cstr (l ++ zeros n)).length ≤ l.length := by
  induction l with
  | nil => simp [cstr_zeros]
  | cons c cs ih =>
    by_cases hc : c = 0
    · simp [cstr, hc]
    · simp [cstr, hc, ih]

theorem nulFree_replicate (n : Nat) (c : Int) (h : c ≠ 0) : nulFree (List.replicate n c) :=
  fun x hx => by rw [List.eq_of_mem_replicate hx]; exact h

/-! ## Facts about `getFileNames` -/

theorem getFileNamesPass_bytes_full (st : Listing) (chunk : List Int)
    (hlen : chunk.length = BUFLEN - 1)
    (hcap : st.fileNames.length + BUFLEN ≤ st.size_fN) :
    getFileNamesPass st (.bytes chunk) =
      .again ⟨st.fileNames ++ cstr (inBuffer chunk), st.size_fN + BUFLEN⟩ := by
  have hb : BUFLEN = 200 := rfl
  have hle := cstr_append_length_le chunk (BUFLEN - chunk.length)
  have hfit : st.fileNames.length + (cstr (inBuffer chunk)).length + 1 ≤ st.size_fN := by
    unfold inBuffer; omega
  simp only [getFileNamesPass, if_pos hfit, if_pos hlen]

theorem getFileNamesPass_bytes_short (st : Listing) (chunk : List Int)
    (hlen : chunk.length < BUFLEN - 1)
    (hcap : st.fileNames.length + BUFLEN ≤ st.size_fN) :
    getFileNamesPass st (.bytes chunk) =
      .stop ⟨st.fileNames ++ cstr (inBuffer chunk), st.size_fN⟩ := by
  have hb : BUFLEN = 200 := rfl
  have hle := cstr_append_length_le chunk (BUFLEN - chunk.length)
  have hfit : st.fileNames.length + (cstr (inBuffer chunk)).length + 1 ≤ st.size_fN := by
    unfold inBuffer; omega
  have hne : ¬ chunk.length = BUFLEN - 1 := by omega
  simp only [getFileNamesPass, if_pos hfit, if_neg hne]

theorem getFileNamesPass_full (st : Listing) (chunk : List Int)
    (hlen : chunk.length = BUFLEN - 1) (hnul : nulFree chunk)
    (hcap : st.fileNames.length + BUFLEN ≤ st.size_fN) :
    getFileNamesPass st (.bytes chunk) =
      .again ⟨st.fileNames ++ chunk, st.size_fN + BUFLEN⟩ := by
  have hb : BUFLEN = 200 := rfl
  simp only [getFileNamesPass, cstr_inBuffer chunk hnul, hlen]
  rw [if_pos (by omega)]
  simp

theorem getFileNamesPass_short (st : Listing) (chunk : List Int)
    (hlen : chunk.length < BUFLEN - 1) (hnul : nulFree chunk)
    (hcap : st.fileNames.length + BUFLEN ≤ st.size_fN) :
    getFileNamesPass st (.bytes chunk) = .stop ⟨st.fileNames ++ chunk, st.size_fN⟩ := by
  have hb : BUFLEN = 200 := rfl
  simp only [getFileNamesPass, cstr_inBuffer chunk hnul]
  rw [if_pos (by omega), if_neg (by omega)]

theorem getFileNamesLoop_again (st st' : Listing) (r : ReadResult) (rs : List ReadResult)
    (h : getFileNamesPass st r = .again st') :
    getFileNamesLoop st (r :: rs) = getFileNamesLoop st' rs := by
  simp [getFileNamesLoop, h]

theorem getFileNamesLoop_stop (st st' : Listing) (r : ReadResult) (rs : List ReadResult)
    (h : getFileNamesPass st r = .stop st') :
    getFileNamesLoop st (r :: rs) = .done st' rs := by
  simp [getFileNamesLoop, h]

/-- Reading `fulls`, all of them full NUL-free chunks, moves the loop to the state
that holds their concatenation in a buffer grown once per chunk. -/
theorem getFileNamesLoop_fulls (fulls : List (List Int)) :
    ∀ (st : Listing) (rest : List ReadResult),
      (∀ c ∈ fulls, c.length = BUFLEN - 1 ∧ nulFree c) →
      st.fileNames.length + BUFLEN ≤ st.size_fN →
      getFileNamesLoop st (fulls.map .bytes ++ rest) =
        getFileNamesLoop ⟨st.fileNames ++ fulls.flatten, st.size_fN + BUFLEN * fulls.length⟩ rest := by
  induction fulls with
  | nil => intro st rest _ _; simp
  | cons c cs ih =>
    intro st rest h hcap
    have hc := h c (by simp)
    have hcs : ∀ x ∈ cs, x.length = BUFLEN - 1 ∧ nulFree x := fun x hx => h x (by simp [hx])
    have hb : BUFLEN = 200 := rfl
    rw [List.map_cons, List.cons_append,
      getFileNamesLoop_again _ _ _ _ (getFileNamesPass_full st c hc.1 hc.2 hcap),
      ih _ rest hcs (by simp only [List.length_append]; omega)]
    simp only [List.flatten_cons, List.append_assoc, List.length_cons]
    congr 2
    ring

theorem join_fulls_length (fulls : List (List Int))
    (h : ∀ c ∈ fulls, c.length = BUFLEN - 1 ∧ nulFree c) :
    fulls.flatten.length = (BUFLEN - 1) * fulls.length := by
  induction fulls with
  | nil => simp
  | cons c cs ih =>
    have hc := h c (by simp)
    have hcs : ∀ x ∈ cs, x.length = BUFLEN - 1 ∧ nulFree x := fun x hx => h x (by simp [hx])
    simp only [List.flatten_cons, List.length_append, List.length_cons, ih hcs, hc.1]
    ring

/-- No `strcat` of `getFileNames` writes behind the end of `fileNames`, whatever
the reads deliver, as long as no read delivers more than it was asked for. -/
theorem getFileNamesLoop_no_overflow (reads : List ReadResult) :
    ∀ st : Listing,
      (∀ chunk, ReadResult.bytes chunk ∈ reads → chunk.length ≤ BUFLEN - 1) →
      st.fileNames.length + BUFLEN ≤ st.size_fN →
      getFileNamesLoop st reads ≠ .overflow := by
  induction reads with
  | nil => intro st _ _; simp [getFileNamesLoop]
  | cons r rs ih =>
    intro st h hcap
    have hb : BUFLEN = 200 := rfl
    cases r with
    | failed => simp [getFileNamesLoop, getFileNamesPass]
    | bytes chunk =>
      have hlen := h chunk (by simp)
      have hrs : ∀ c, ReadResult.bytes c ∈ rs → c.length ≤ BUFLEN - 1 :=
        fun c hc => h c (by simp [hc])
      have hle := cstr_append_length_le chunk (BUFLEN - chunk.length)
      have hfit : st.fileNames.length + (cstr (inBuffer chunk)).length + 1 ≤ st.size_fN := by
        unfold inBuffer; omega
      simp only [getFileNamesLoop, getFileNamesPass, if_pos hfit]
      by_cases hfull : chunk.length = BUFLEN - 1
      · simp only [if_pos hfull]
        apply ih _ hrs
        simp only [List.length_append]
        unfold inBuffer; omega
      · simp only [if_neg hfull]
        simp

theorem streamReadsFrom_nil (fuel : Nat) : streamReadsFrom fuel [] = [.bytes []] := by
  cases fuel <;> simp [streamReadsFrom]

/-- The reader on a stream delivered `BUFLEN - 1` bytes at a time: it asks for
every chunk of the stream, and for the read at its end exactly when the length
is a multiple of `BUFLEN - 1`; a NUL-free stream is accumulated whole. -/
theorem getFileNamesLoop_stream (fuel : Nat) :
    ∀ (out : List Int) (st : Listing), out.length ≤ fuel →
      st.fileNames.length + BUFLEN ≤ st.size_fN →
      ∃ fn, getFileNamesLoop st (streamReadsFrom fuel out) =
          .done ⟨fn, st.size_fN + BUFLEN * (out.length / (BUFLEN - 1))⟩
            (if out.length % (BUFLEN - 1) = 0 then [] else [.bytes []]) ∧
        (nulFree out → fn = st.fileNames ++ out) := by
  have hb : BUFLEN = 200 := rfl
  have hnil : ∀ st : Listing, st.fileNames.length + BUFLEN ≤ st.size_fN →
      getFileNamesLoop st [.bytes []] = .done ⟨st.fileNames, st.size_fN⟩ [] := by
    intro st hcap
    rw [getFileNamesLoop_stop _ _ _ _
      (getFileNamesPass_bytes_short st [] (by simp [hb]) hcap)]
    simp [inBuffer, cstr_zeros]
  induction fuel with
  | zero =>
    intro out st hlen hcap
    have hout : out = [] := List.length_eq_zero.mp (by omega)
    subst hout
    exact ⟨st.fileNames, by simp [streamReadsFrom, hnil st hcap], fun _ => by simp⟩
  | succ fuel ih =>
    intro out st hlen hcap
    by_cases hout : out = []
    · subst hout
      exact ⟨st.fileNames, by simp [streamReadsFrom, hnil st hcap], fun _ => by simp⟩
    · have hpos : 0 < out.length := List.length_pos.mpr hout
      simp only [streamReadsFrom, if_neg hout]
      by_cases hfull : BUFLEN - 1 ≤ out.length
      · have htake : (out.take (BUFLEN - 1)).length = BUFLEN - 1 := by
          simp only [List.length_take]; omega
        rw [getFileNamesLoop_again _ _ _ _
          (getFileNamesPass_bytes_full st _ htake hcap)]
        have hle := cstr_append_length_le (out.take (BUFLEN - 1))
          (BUFLEN - (out.take (BUFLEN - 1)).length)
        obtain ⟨fn, hrun, hfn⟩ := ih (out.drop (BUFLEN - 1))
          ⟨st.fileNames ++ cstr (inBuffer (out.take (BUFLEN - 1))), st.size_fN + BUFLEN⟩
          (by simp only [List.length_drop]; omega)
          (by simp only [List.length_append]; unfold inBuffer; omega)
        refine ⟨fn, ?_, ?_⟩
        · rw [hrun]
          have h1 : (out.drop (BUFLEN - 1)).length = out.length - (BUFLEN - 1) := by simp
          have h2 : out.length / (BUFLEN - 1) = (out.length - (BUFLEN - 1)) / (BUFLEN - 1) + 1 := by
            rw [hb] at hfull ⊢; omega
          have h3 : out.length % (BUFLEN - 1) = (out.length - (BUFLEN - 1)) % (BUFLEN - 1) := by
            rw [hb] at hfull ⊢; omega
          rw [h1, h2, h3]
          congr 2
          ring
        · intro hnul
          have ht : nulFree (out.take (BUFLEN - 1)) := fun c hc => hnul c (List.mem_of_mem_take hc)
          have hd : nulFree (out.drop (BUFLEN - 1)) := fun c hc => hnul c (List.mem_of_mem_drop hc)
          rw [hfn hd, cstr_inBuffer _ ht, List.append_assoc, List.take_append_drop]
      · have hshort : out.length < BUFLEN - 1 := by omega
        have htake : out.take (BUFLEN - 1) = out := List.take_of_length_le (by omega)
        have hdrop : out.drop (BUFLEN - 1) = [] := List.drop_of_length_le (by omega)
        rw [htake, hdrop, streamReadsFrom_nil, getFileNamesLoop_stop _ _ _ _
          (getFileNamesPass_bytes_short st out hshort hcap)]
        refine ⟨st.fileNames ++ cstr (inBuffer out), ?_, ?_⟩
        · have h2 : out.length / (BUFLEN - 1) = 0 := by
            rw [hb] at hshort ⊢; omega
          have h3 : ¬ out.length % (BUFLEN - 1) = 0 := by
            rw [hb] at hshort ⊢; omega
          rw [h2, if_neg h3]
          simp
        · intro hnul
          rw [cstr_inBuffer _ hnul]

theorem full_replicate (c : Int) (h : c ≠ 0) :
    (List.replicate 199 c).length = BUFLEN - 1 ∧ nulFree (List.replicate 199 c) :=
  ⟨List.length_replicate 199 c, nulFree_replicate 199 c h⟩

/-- In the read model with an end of stream, for every NUL-free output whose
length is a non-zero multiple of `BUFLEN - 1`, `getFileNames` reads at least one
full chunk, asks for every read including the one at the end of the stream, and
`fileNames` is the whole output. -/
theorem getFileNames_drains_chunk_aligned_stream (out : List Int)
    (hne : out ≠ []) (hmul : out.length % (BUFLEN - 1) = 0) (hnul : nulFree out) :
    1 ≤ out.length / (BUFLEN - 1) ∧ getFileNames (streamReads out) =
      .done ⟨out, BUFLEN * (out.length / (BUFLEN - 1) + 1)⟩ [] := by
  obtain ⟨fn, hrun, hfn⟩ := getFileNamesLoop_stream out.length out ⟨[], BUFLEN⟩
    (le_refl _) (by simp)
  have hpos : 0 < out.length := List.length_pos.mpr hne
  have hb : BUFLEN = 200 := rfl
  refine ⟨by rw [hb] at hmul ⊢; omega, ?_⟩
  unfold getFileNames streamReads
  rw [hrun, hfn hnul, if_pos hmul]
  simp only [List.nil_append]
  congr 2
  ring

/-- In the read model with an end of stream there is no NUL-free output of a
length that is a non-zero multiple of `BUFLEN - 1` for which the accumulated
`fileNames` is a strict prefix of the output; and for no output of such a length
at all does the reader leave its loop with a read result not asked for. -/
theorem getFileNames_never_one_chunk_early :
    (¬ ∃ out : List Int, out ≠ [] ∧ out.length % (BUFLEN - 1) = 0 ∧ nulFree out ∧
        ∃ st unread, getFileNames (streamReads out) = .done st unread ∧
          st.fileNames <+: out ∧ st.fileNames ≠ out) ∧
      (¬ ∃ out : List Int, out ≠ [] ∧ out.length % (BUFLEN - 1) = 0 ∧
        ∃ st unread, getFileNames (streamReads out) = .done st unread ∧
          unread ≠ []) := by
  constructor
  · rintro ⟨out, _, hmul, hnul, st, unread, hrun, _, hneq⟩
    obtain ⟨fn, hrun', hfn⟩ := getFileNamesLoop_stream out.length out ⟨[], BUFLEN⟩
      (le_refl _) (by simp)
    unfold getFileNames streamReads at hrun
    rw [hrun', hfn hnul] at hrun
    injection hrun with hst _
    apply hneq
    rw [← hst]
    simp
  · rintro ⟨out, _, hmul, st, unread, hrun, hunread⟩
    obtain ⟨fn, hrun', _⟩ := getFileNamesLoop_stream out.length out ⟨[], BUFLEN⟩
      (le_refl _) (by simp)
    unfold getFileNames streamReads at hrun
    rw [hrun', if_pos hmul] at hrun
    injection hrun with _ hun
    exact hunread hun.symm

/-- The reader on the pipe of `main`, which delivers the bytes `BUFLEN - 1` at a
time and nothing at their end: when the length is a multiple of `BUFLEN - 1`
every read is full, the loop asks for one more, and that read does not return. -/
theorem getFileNamesLoop_pipe_aligned (fuel : Nat) :
    ∀ (out : List Int) (st : Listing), out.length ≤ fuel →
      out.length % (BUFLEN - 1) = 0 →
      st.fileNames.length + BUFLEN ≤ st.size_fN →
      ∃ fn, getFileNamesLoop st (pipeReadsFrom fuel out) =
          .blocked ⟨fn, st.size_fN + BUFLEN * (out.length / (BUFLEN - 1))⟩ ∧
        (nulFree out → fn = st.fileNames ++ out) := by
  have hb : BUFLEN = 200 := rfl
  induction fuel with
  | zero =>
    intro out st hlen _ _
    have hout : out = [] := List.length_eq_zero.mp (by omega)
    subst hout
    exact ⟨st.fileNames, by simp [pipeReadsFrom, getFileNamesLoop], fun _ => by simp⟩
  | succ fuel ih =>
    intro out st hlen hmul hcap
    by_cases hout : out = []
    · subst hout
      exact ⟨st.fileNames, by simp [pipeReadsFrom, getFileNamesLoop], fun _ => by simp⟩
    · have hpos : 0 < out.length := List.length_pos.mpr hout
      have hfull : BUFLEN - 1 ≤ out.length := by rw [hb] at hmul ⊢; omega
      have htake : (out.take (BUFLEN - 1)).length = BUFLEN - 1 := by
        simp only [List.length_take]; omega
      have hle := cstr_append_length_le (out.take (BUFLEN - 1))
        (BUFLEN - (out.take (BUFLEN - 1)).length)
      have h1 : (out.drop (BUFLEN - 1)).length = out.length - (BUFLEN - 1) := by simp
      have h2 : out.length / (BUFLEN - 1) = (out.length - (BUFLEN - 1)) / (BUFLEN - 1) + 1 := by
        rw [hb] at hfull ⊢; omega
      have h3 : (out.length - (BUFLEN - 1)) % (BUFLEN - 1) = 0 := by
        rw [hb] at hfull hmul ⊢; omega
      obtain ⟨fn, hrun, hfn⟩ := ih (out.drop (BUFLEN - 1))
        ⟨st.fileNames ++ cstr (inBuffer (out.take (BUFLEN - 1))), st.size_fN + BUFLEN⟩
        (by rw [h1]; omega) (by rw [h1]; exact h3)
        (by simp only [List.length_append]; unfold inBuffer; omega)
      simp only [pipeReadsFrom, if_neg hout]
      rw [getFileNamesLoop_again _ _ _ _ (getFileNamesPass_bytes_full st _ htake hcap)]
      refine ⟨fn, ?_, ?_⟩
      · rw [hrun, h1, h2]
        have e : st.size_fN + BUFLEN + BUFLEN * ((out.length - (BUFLEN - 1)) / (BUFLEN - 1)) =
            st.size_fN + BUFLEN * ((out.length - (BUFLEN - 1)) / (BUFLEN - 1) + 1) := by ring
        rw [e]
      · intro hnul
        have ht : nulFree (out.take (BUFLEN - 1)) := fun c hc => hnul c (List.mem_of_mem_take hc)
        have hd : nulFree (out.drop (BUFLEN - 1)) := fun c hc => hnul c (List.mem_of_mem_drop hc)
        rw [hfn hd, cstr_inBuffer _ ht, List.append_assoc, List.take_append_drop]

theorem pipeReadsFrom_nil (fuel : Nat) : pipeReadsFrom fuel [] = [] := by
  cases fuel <;> simp [pipeReadsFrom]

/-- The reader on the pipe of `main` when the length of what `ls` wrote is not a
multiple of `BUFLEN - 1`: the last read is short, the loop is left behind it, no
read is left, and a NUL-free output is accumulated whole. -/
theorem getFileNamesLoop_pipe_unaligned (fuel : Nat) :
    ∀ (out : List Int) (st : Listing), out.length ≤ fuel →
      out.length % (BUFLEN - 1) ≠ 0 →
      st.fileNames.length + BUFLEN ≤ st.size_fN →
      ∃ fn, getFileNamesLoop st (pipeReadsFrom fuel out) =
          .done ⟨fn, st.size_fN + BUFLEN * (out.length / (BUFLEN - 1))⟩ [] ∧
        (nulFree out → fn = st.fileNames ++ out) := by
  have hb : BUFLEN = 200 := rfl
  induction fuel with
  | zero =>
    intro out st hlen hmul _
    have hout : out = [] := List.length_eq_zero.mp (by omega)
    subst hout
    exact absurd (by simp) hmul
  | succ fuel ih =>
    intro out st hlen hmul hcap
    have hout : out ≠ [] := fun h => hmul (by simp [h])
    simp only [pipeReadsFrom, if_neg hout]
    by_cases hfull : BUFLEN - 1 ≤ out.length
    · have htake : (out.take (BUFLEN - 1)).length = BUFLEN - 1 := by
        simp only [List.length_take]; omega
      have hle := cstr_append_length_le (out.take (BUFLEN - 1))
        (BUFLEN - (out.take (BUFLEN - 1)).length)
      have h1 : (out.drop (BUFLEN - 1)).length = out.length - (BUFLEN - 1) := by simp
      have h2 : out.length / (BUFLEN - 1) = (out.length - (BUFLEN - 1)) / (BUFLEN - 1) + 1 := by
        rw [hb] at hfull ⊢; omega
      have h3 : (out.length - (BUFLEN - 1)) % (BUFLEN - 1) ≠ 0 := by
        rw [hb] at hfull hmul ⊢; omega
      obtain ⟨fn, hrun, hfn⟩ := ih (out.drop (BUFLEN - 1))
        ⟨st.fileNames ++ cstr (inBuffer (out.take (BUFLEN - 1))), st.size_fN + BUFLEN⟩
        (by rw [h1]; omega) (by rw [h1]; exact h3)
        (by simp only [List.length_append]; unfold inBuffer; omega)
      rw [getFileNamesLoop_again _ _ _ _ (getFileNamesPass_bytes_full st _ htake hcap)]
      refine ⟨fn, ?_, ?_⟩
      · rw [hrun, h1, h2]
        have e : st.size_fN + BUFLEN + BUFLEN * ((out.length - (BUFLEN - 1)) / (BUFLEN - 1)) =
            st.size_fN + BUFLEN * ((out.length - (BUFLEN - 1)) / (BUFLEN - 1) + 1) := by ring
        rw [e]
      · intro hnul
        have ht : nulFree (out.take (BUFLEN - 1)) := fun c hc => hnul c (List.mem_of_mem_take hc)
        have hd : nulFree (out.drop (BUFLEN - 1)) := fun c hc => hnul c (List.mem_of_mem_drop hc)
        rw [hfn hd, cstr_inBuffer _ ht, List.append_assoc, List.take_append_drop]
    · have hshort : out.length < BUFLEN - 1 := by omega
      have htake : out.take (BUFLEN - 1) = out := List.take_of_length_le (by omega)
      have hdrop : out.drop (BUFLEN - 1) = [] := List.drop_of_length_le (by omega)
      rw [htake, hdrop, pipeReadsFrom_nil, getFileNamesLoop_stop _ _ _ _
        (getFileNamesPass_bytes_short st out hshort hcap)]
      refine ⟨st.fileNames ++ cstr (inBuffer out), ?_, ?_⟩
      · have h2 : out.length / (BUFLEN - 1) = 0 := by
          rw [hb] at hshort ⊢; omega
        rw [h2]
        simp
      · intro hnul
        rw [cstr_inBuffer _ hnul]

/-- On the pipe of `main`, a NUL-free output of `ls` whose length is not a multiple
of `BUFLEN - 1` is accumulated whole and `getFileNames` returns. -/
theorem getFileNames_pipe_unaligned (out : List Int) (hnul : nulFree out)
    (hmul : out.length % (BUFLEN - 1) ≠ 0) :
    getFileNames (pipeReads out) =
      .done ⟨out, BUFLEN * (out.length / (BUFLEN - 1) + 1)⟩ [] := by
  obtain ⟨fn, hrun, hfn⟩ := getFileNamesLoop_pipe_unaligned out.length out ⟨[], BUFLEN⟩
    (le_refl _) hmul (by simp)
  unfold getFileNames pipeReads
  rw [hrun, hfn hnul]
  have e : BUFLEN + BUFLEN * (out.length / (BUFLEN - 1)) =
      BUFLEN * (out.length / (BUFLEN - 1) + 1) := by ring
  simp only [List.nil_append, e]

/-! ## Facts about `prefixDiff` -/

theorem prefixDiffLoop_ge (fileName : List Int) (ps : List Int) :
    ∀ (i : Nat) (diff : Int), diff ≤ prefixDiffLoop fileName ps i diff := by
  induction ps with
  | nil => intro i diff; simp [prefixDiffLoop]
  | cons p rest ih =>
    intro i diff
    unfold prefixDiffLoop
    split_ifs
    · exact le_refl _
    · exact le_trans (by omega) (ih (i + 1) (diff + 1))
    · exact ih (i + 1) diff

/-- A position of the ignore prefix, reached by the loop, at which the three
acceptance tests fail adds one to the result. -/
theorem prefixDiffLoop_counts (fileName : List Int) (pre : List Int) (p : Int)
    (post : List Int) :
    ∀ (i : Nat) (diff : Int), nulFree pre → p ≠ 0 →
      (p ≠ fileName.getD (i + pre.length) 0 ∧ p + 32 ≠ fileName.getD (i + pre.length) 0 ∧
        p ≠ fileName.getD (i + pre.length) 0 + 32) →
      diff + 1 ≤ prefixDiffLoop fileName (pre ++ p :: post) i diff := by
  induction pre with
  | nil =>
    intro i diff _ hp hmis
    simp only [List.length_nil, Nat.add_zero] at hmis
    simp only [List.nil_append, prefixDiffLoop, if_neg hp, if_pos hmis]
    exact prefixDiffLoop_ge fileName post (i + 1) (diff + 1)
  | cons c cs ih =>
    intro i diff hnul hp hmis
    have hc : c ≠ 0 := hnul c (by simp)
    have hcs : nulFree cs := fun x hx => hnul x (by simp [hx])
    have hmis' : p ≠ fileName.getD (i + 1 + cs.length) 0 ∧
        p + 32 ≠ fileName.getD (i + 1 + cs.length) 0 ∧
        p ≠ fileName.getD (i + 1 + cs.length) 0 + 32 := by
      have : i + 1 + cs.length = i + (c :: cs).length := by simp; omega
      rw [this]; exact hmis
    simp only [List.cons_append, prefixDiffLoop, if_neg hc]
    split_ifs
    · exact le_trans (by omega) (ih (i + 1) (diff + 1) hcs hp hmis')
    · exact ih (i + 1) diff hcs hp hmis'

theorem getD_inBuffer_length (name : List Int) (n : Nat) :
    (name ++ zeros n).getD name.length 0 = 0 := by
  induction name with
  | nil => cases n <;> simp [zeros, List.replicate_succ]
  | cons c cs ih => simpa using ih

/-- The result of `prefixDiff` is 0 exactly when at every position of the ignore
prefix the two characters are equal or 32 apart. -/
theorem prefixDiffLoop_eq_iff (fileName : List Int) (ps : List Int) :
    ∀ (i : Nat) (diff : Int), nulFree ps →
      (prefixDiffLoop fileName ps i diff = diff ↔
        ∀ k, k < ps.length →
          (ps.getD k 0 = fileName.getD (i + k) 0 ∨ ps.getD k 0 + 32 = fileName.getD (i + k) 0 ∨
            ps.getD k 0 = fileName.getD (i + k) 0 + 32)) := by
  induction ps with
  | nil => intro i diff _; simp [prefixDiffLoop]
  | cons p rest ih =>
    intro i diff hnul
    have hp : p ≠ 0 := hnul p (by simp)
    have hrest : nulFree rest := fun x hx => hnul x (by simp [hx])
    simp only [prefixDiffLoop, if_neg hp]
    by_cases hmis : p ≠ fileName.getD i 0 ∧ p + 32 ≠ fileName.getD i 0 ∧ p ≠ fileName.getD i 0 + 32
    · rw [if_pos hmis]
      have hge := prefixDiffLoop_ge fileName rest (i + 1) (diff + 1)
      constructor
      · intro h; omega
      · intro h
        have h0 := h 0 (by simp)
        simp only [List.getD_cons_zero, Nat.add_zero] at h0
        tauto
    · rw [if_neg hmis, ih (i + 1) diff hrest]
      constructor
      · intro h k hk
        cases k with
        | zero =>
          simp only [List.getD_cons_zero, Nat.add_zero]
          tauto
        | succ k =>
          have := h k (by simpa using hk)
          simpa [Nat.add_assoc, Nat.add_comm 1 k] using this
      · intro h k hk
        have := h (k + 1) (by simpa using hk)
        simpa [Nat.add_assoc, Nat.add_comm 1 k] using this

theorem asciiLower_eq (a b : Int) (h : asciiLower a = asciiLower b) :
    a = b ∨ a + 32 = b ∨ a = b + 32 := by
  unfold asciiLower at h
  split_ifs at h <;> omega

/-- The direction of C2 that holds: a name whose first characters equal the ignore
prefix under ASCII case-insensitive comparison has result 0. -/
theorem prefixDiff_zero_of_caseInsensitiveEq (ignorePrefix fileName : List Int)
    (hnul : nulFree ignorePrefix)
    (h : asciiCaseInsensitiveEq (fileName.take ignorePrefix.length) ignorePrefix) :
    prefixDiff (some ignorePrefix) fileName = 0 := by
  unfold prefixDiff
  simp only
  rw [prefixDiffLoop_eq_iff fileName ignorePrefix 0 0 hnul]
  intro k hk
  unfold asciiCaseInsensitiveEq at h
  have hk' := congrArg (fun l => l.getD k 0) h
  simp only [List.getD_eq_getElem?_getD, List.getElem?_map, List.getElem?_take, hk, if_true] at hk'
  rw [Nat.zero_add]
  simp only [List.getD_eq_getElem?_getD]
  cases hf : fileName[k]? with
  | none =>
    cases hp : ignorePrefix[k]? with
    | none => simp
    | some p =>
      rw [hf, hp] at hk'
      simp only [Option.map_none', Option.map_some', Option.getD_none, Option.getD_some] at hk'
      have := asciiLower_eq 0 p (by simpa [asciiLower] using hk')
      simp only [Option.getD_some, Option.getD_none]
      omega
  | some f =>
    cases hp : ignorePrefix[k]? with
    | none =>
      exact absurd hp (by simp [List.getElem?_eq_none_iff]; omega)
    | some p =>
      rw [hf, hp] at hk'
      simp only [Option.map_some', Option.getD_some] at hk'
      have := asciiLower_eq f p hk'
      simp only [Option.getD_some]
      omega

/-- The examples of the specification: with the ignore prefix `tmp`, the names
`tmpA` and `TMPB` have result 0 and `other.txt` has not. -/
theorem prefixDiff_spec_examples :
    prefixDiff (some [116, 109, 112]) (inBuffer [116, 109, 112, 65]) = 0 ∧
      prefixDiff (some [116, 109, 112]) (inBuffer [84, 77, 80, 66]) = 0 ∧
      prefixDiff (some [116, 109, 112])
        (inBuffer [111, 116, 104, 101, 114, 46, 116, 120, 116]) = 3 := by
  decide

/-! ## Facts about wait statuses -/

theorem WEXITSTATUS_exited (code : Nat) (h : code < 256) : WEXITSTATUS (256 * code) = code := by
  unfold WEXITSTATUS; omega

/-- The stage test reads the exit-code bits alone: among the statuses of children
that exited normally it singles out exit code 0, and it holds of every status
below 256, the statuses of children terminated by a signal among them. -/
theorem stageSucceeded_iff (status : Nat) :
    (stageSucceeded status = true ↔ WEXITSTATUS status = 0) ∧
      (∀ code, code < 256 → status = 256 * code → (stageSucceeded status = true ↔ code = 0)) ∧
      (status < 256 → stageSucceeded status = true) := by
  refine ⟨by simp [stageSucceeded, EXIT_SUCCESS], ?_, ?_⟩
  · intro code hcode hst
    simp [stageSucceeded, EXIT_SUCCESS, hst, WEXITSTATUS_exited code hcode]
  · intro h
    simp only [stageSucceeded, EXIT_SUCCESS, WEXITSTATUS, beq_iff_eq]
    omega

/-! ## Facts about the per-file loop -/

theorem getD_middle (pre : List Int) (c : Int) (post : List Int) :
    (pre ++ c :: post).getD pre.length 0 = c := by
  induction pre with
  | nil => simp
  | cons x xs ih => simpa using ih

theorem charAt_middle (pre : List Int) (c : Int) (post : List Int) :
    charAt (pre ++ c :: post) pre.length = some c := by
  unfold charAt
  rw [if_pos (by simp), getD_middle]

theorem charAt_end (l : List Int) : charAt l l.length = some 0 := by
  simp [charAt]

theorem set_copied (copied : List Int) (c : Int) (n : Nat) :
    (copied ++ zeros (n + 1)).set copied.length c = (copied ++ [c]) ++ zeros n := by
  induction copied with
  | nil => simp [zeros, List.replicate_succ]
  | cons x xs ih => simpa using ih

/-- The inner loop copies an entry up to its newline into the zeroed `fileName`. -/
theorem copyName_entry (pre post : List Int) (rest : List Int) :
    ∀ (copied : List Int) (fuel : Nat),
      rest.length < fuel → 10 ∉ rest → copied.length + rest.length < BUFLEN →
      copyName (pre ++ (copied ++ rest) ++ 10 :: post) fuel (pre.length + copied.length)
          copied.length (inBuffer copied) =
        some (pre.length + (copied ++ rest).length, inBuffer (copied ++ rest)) := by
  induction rest with
  | nil =>
    intro copied fuel hfuel _ _
    obtain ⟨fuel, rfl⟩ : ∃ f, fuel = f + 1 := ⟨fuel - 1, by simp at hfuel; omega⟩
    have h := charAt_middle (pre ++ copied) 10 post
    simp only [List.length_append] at h
    simp only [List.append_nil, copyName, h]
    simp
  | cons c cs ih =>
    intro copied fuel hfuel hnl hlen
    obtain ⟨fuel, rfl⟩ : ∃ f, fuel = f + 1 := ⟨fuel - 1, by simp at hfuel; omega⟩
    have hc : c ≠ 10 := fun h => hnl (by simp [h])
    have hcs : 10 ∉ cs := fun h => hnl (by simp [h])
    have h := charAt_middle (pre ++ copied) c (cs ++ 10 :: post)
    simp only [List.length_append] at h
    have hlist : pre ++ (copied ++ c :: cs) ++ 10 :: post =
        pre ++ copied ++ c :: (cs ++ 10 :: post) := by simp
    simp only [List.length_cons] at hfuel hlen
    have hj : copied.length < BUFLEN := by omega
    have hbuf : (inBuffer copied).set copied.length c = inBuffer (copied ++ [c]) := by
      unfold inBuffer
      have : BUFLEN - copied.length = (BUFLEN - (copied ++ [c]).length) + 1 := by
        simp only [List.length_append, List.length_singleton]; omega
      rw [this, set_copied]
    have hrec := ih (copied ++ [c]) fuel (by omega) hcs
      (by simp only [List.length_append, List.length_singleton]; omega)
    simp only [List.length_append, List.length_singleton, List.append_assoc,
      List.singleton_append] at hrec
    rw [hlist]
    simp only [copyName, h, if_neg hc, if_pos hj, hbuf]
    rw [show pre ++ copied ++ c :: (cs ++ 10 :: post) =
        pre ++ (copied ++ (c :: cs ++ 10 :: post)) from by simp,
      show pre.length + copied.length + 1 = pre.length + (copied.length + 1) from by omega,
      hrec]
    simp

theorem listingOf_cons (e : List Int) (es : List (List Int)) :
    listingOf (e :: es) = e ++ 10 :: listingOf es := by
  simp [listingOf]

theorem length_le_listingOf (entries : List (List Int)) :
    entries.length ≤ (listingOf entries).length := by
  induction entries with
  | nil => simp [listingOf]
  | cons e es ih => rw [listingOf_cons]; simp only [List.length_append, List.length_cons]; omega

/-- The outer loop, started at the first character of an entry, runs the body on
the entries that follow, in order, and ends at the NUL behind the last newline. -/
theorem forEachName_entries {σ : Type} (body : List Int → σ → Step σ)
    (entries : List (List Int)) :
    ∀ (pre : List Int) (s : σ) (fuel : Nat), entries.length < fuel →
      (∀ e ∈ entries, 10 ∉ e ∧ nulFree e ∧ e.length < BUFLEN) →
      forEachName body (pre ++ listingOf entries) fuel pre.length s =
        match eachInOrder body (entries.map inBuffer) s with
        | .next s' => .finished (pre ++ listingOf entries).length s'
        | .halt h s' => .halted h s' := by
  induction entries with
  | nil =>
    intro pre s fuel hfuel _
    obtain ⟨fuel, rfl⟩ : ∃ f, fuel = f + 1 := ⟨fuel - 1, by simp at hfuel; omega⟩
    simp [listingOf, forEachName, charAt_end, eachInOrder]
  | cons e es ih =>
    intro pre s fuel hfuel h
    obtain ⟨fuel, rfl⟩ : ∃ f, fuel = f + 1 := ⟨fuel - 1, by simp at hfuel; omega⟩
    obtain ⟨hnl, hnul, hlen⟩ := h e (by simp)
    have hes : ∀ x ∈ es, 10 ∉ x ∧ nulFree x ∧ x.length < BUFLEN :=
      fun x hx => h x (by simp [hx])
    have hfirst : ∃ c, charAt (pre ++ listingOf (e :: es)) pre.length = some c ∧ c ≠ 0 := by
      rw [listingOf_cons]
      cases e with
      | nil => exact ⟨10, by simpa using charAt_middle pre 10 (listingOf es), by decide⟩
      | cons x xs =>
        exact ⟨x, by simpa using charAt_middle pre x (xs ++ 10 :: listingOf es),
          hnul x (by simp)⟩
    obtain ⟨c, hc, hc0⟩ := hfirst
    have hcopy := copyName_entry pre (listingOf es) e [] ((pre ++ listingOf (e :: es)).length + 2)
      (by rw [listingOf_cons]; simp only [List.length_append, List.length_cons]; omega)
      hnl (by simpa using hlen)
    simp only [List.nil_append, List.length_nil, Nat.add_zero] at hcopy
    have hz : inBuffer [] = zeros BUFLEN := by simp [inBuffer]
    rw [hz] at hcopy
    have hl : pre ++ listingOf (e :: es) = pre ++ e ++ 10 :: listingOf es := by
      rw [listingOf_cons]; simp
    have hl' : pre ++ listingOf (e :: es) = (pre ++ e ++ [10]) ++ listingOf es := by
      rw [listingOf_cons]; simp
    simp only [forEachName, hc, if_neg hc0]
    rw [show copyName (pre ++ listingOf (e :: es)) ((pre ++ listingOf (e :: es)).length + 2)
        pre.length 0 (zeros BUFLEN) = some (pre.length + e.length, inBuffer e) from by
      rw [← hcopy, hl]]
    simp only [List.map_cons, eachInOrder]
    cases hbody : body (inBuffer e) s with
    | halt hh s' => rfl
    | next s' =>
      simp only []
      have hrec := ih (pre ++ e ++ [10]) s' fuel (by simp only [List.length_cons] at hfuel; omega) hes
      simp only [List.length_append, List.length_singleton] at hrec
      rw [hl']
      simp only [List.length_append, List.length_singleton]
      exact hrec

theorem eachInOrder_record (entries : List (List Int)) :
    ∀ seen : List (List Int),
      eachInOrder (fun fileName seen => Step.next (seen ++ [cstr fileName]))
          (entries.map inBuffer) seen =
        .next (seen ++ (entries.map inBuffer).map cstr) := by
  induction entries with
  | nil => intro seen; simp [eachInOrder]
  | cons e es ih => intro seen; simp [eachInOrder, ih]

/-! ## The output of `main` when no byte is left in a pipe -/

theorem copyHash_zeros (n : Nat) : copyHash (zeros n) = [] := by
  cases n <;> simp [zeros, copyHash, List.replicate_succ]

theorem copyHash_inBuffer (out : List Int) (n : Nat) (h : nulFree out) :
    copyHash (out ++ zeros n) = out.takeWhile (· ≠ 32) := by
  induction out with
  | nil => simp [copyHash_zeros]
  | cons c cs ih =>
    have hc : c ≠ 0 := h c (by simp)
    have hcs : nulFree cs := fun x hx => h x (by simp [hx])
    by_cases h32 : c = 32
    · simp [copyHash, h32]
    · simp [copyHash, hc, h32, List.takeWhile_cons, ih hcs]

theorem nulFree_copyHash (l : List Int) : nulFree (copyHash l) := by
  induction l with
  | nil => simp [copyHash, nulFree]
  | cons c cs ih =>
    unfold copyHash
    split_ifs with h
    · intro x hx
      rcases List.mem_cons.mp hx with rfl | hx
      · exact h.1
      · exact ih x hx
    · simp [nulFree]

theorem readPipe_whole (out : List Int) (hne : out ≠ []) (hlen : out.length ≤ BUFLEN - 1) :
    readPipe out (BUFLEN - 1) = some (out, []) := by
  simp [readPipe, hne, List.take_of_length_le hlen, List.drop_of_length_le hlen]

theorem specOutput_cons (w : World) (ignorePrefix : Option (List Int)) (directory : List Int)
    (name : List Int) (names : List (List Int)) :
    specOutput w ignorePrefix directory (name :: names) =
      specOutput w ignorePrefix directory [name] ++ specOutput w ignorePrefix directory names := by
  unfold specOutput
  simp only [List.filter_cons, List.filter_nil]
  split_ifs <;> simp

theorem specOutput_single_pos (w : World) (ignorePrefix : Option (List Int))
    (directory name : List Int) (h1 : prefixDiff ignorePrefix (inBuffer name) ≠ 0)
    (h2 : (w.md5sum (directory ++ [47] ++ name)).1 = .status 0)
    (h3 : (w.file (directory ++ [47] ++ name)).1 = .status 0) :
    specOutput w ignorePrefix directory [name] = specLine w directory name := by
  have hc : (decide (prefixDiff ignorePrefix (inBuffer name) ≠ 0) &&
      exitedWithZero (w.md5sum (directory ++ [47] ++ name)).1 &&
      exitedWithZero (w.file (directory ++ [47] ++ name)).1) = true := by
    rw [h2, h3]; simp [exitedWithZero, h1]
  unfold specOutput
  rw [List.filter_cons, if_pos hc]
  simp

theorem specOutput_single_neg (w : World) (ignorePrefix : Option (List Int))
    (directory name : List Int)
    (h : (w.md5sum (directory ++ [47] ++ name)).1 ≠ .status 0 ∨
      (w.file (directory ++ [47] ++ name)).1 ≠ .status 0) :
    specOutput w ignorePrefix directory [name] = [] := by
  have hc : ¬ (decide (prefixDiff ignorePrefix (inBuffer name) ≠ 0) &&
      exitedWithZero (w.md5sum (directory ++ [47] ++ name)).1 &&
      exitedWithZero (w.file (directory ++ [47] ++ name)).1) = true := by
    simp only [exitedWithZero, Bool.and_eq_true, beq_iff_eq, not_and]
    rcases h with h | h
    · intro hab _; exact h hab.2
    · intro _ hc; exact h hc
  unfold specOutput
  rw [List.filter_cons, if_neg hc]
  simp

theorem next_tidy (st : State) (out : List Int) (h1 : st.pipe_md5 = []) (h2 : st.pipe_file = [])
    (h3 : st.stdout = out) : ∃ stg, Step.next st = .next ⟨[], [], out, stg⟩ :=
  ⟨st.stages, by cases st; simp_all⟩

/-- One pass through the per-file body for a tidy name, started with empty pipes:
the pipes are empty again and the standard output has grown by what the
specification gives for that name. -/
theorem loopBody_tidy (w : World) (ignorePrefix : Option (List Int))
    (directory name out0 : List Int) (stg0 : List Stage)
    (hdir : nulFree directory) (hname : nulFree name) (ht : Tidy w directory name) :
    ∃ stg, loopBody w ignorePrefix directory (inBuffer name) ⟨[], [], out0, stg0⟩ =
      .next ⟨[], [], out0 ++ specOutput w ignorePrefix directory [name], stg⟩ := by
  have hb : BUFLEN = 200 := rfl
  by_cases hdiff : prefixDiff ignorePrefix (inBuffer name) = 0
  · exact ⟨stg0, by simp [loopBody, hdiff, specOutput]⟩
  · have hpathnul : nulFree (directory ++ [47] ++ name) := by
      intro c hc
      simp only [List.mem_append, List.mem_singleton] at hc
      rcases hc with (hc | hc) | hc
      · exact hdir c hc
      · rw [hc]; decide
      · exact hname c hc
    have hfits := ht.fits
    have hpath : getFilePath directory (inBuffer name) =
        some (inBuffer (directory ++ [47] ++ name)) := by
      simp only [getFilePath, cstr_inBuffer name hname]
      rw [if_pos (by omega)]
    obtain ⟨code, out, hmd5, hcode, hok, hfail⟩ := ht.md5sum
    obtain ⟨code2, out2, hfile, hcode2, hok2, hfail2⟩ := ht.file
    have hs1 := ((stageSucceeded_iff (256 * code)).2.1 code hcode rfl)
    have hs2 := ((stageSucceeded_iff (256 * code2)).2.1 code2 hcode2 rfl)
    simp only [loopBody, if_neg hdiff, processFile, hpath, cstr_inBuffer _ hpathnul, hmd5]
    by_cases hc0 : code = 0
    · obtain ⟨hne, hlen, hnul⟩ := hok hc0
      have hsucc : stageSucceeded (256 * code) = true := hs1.mpr hc0
      simp only [hsucc, if_true, List.nil_append, getMD5hash, readPipe_whole out hne hlen,
        classify, cstr_inBuffer _ hpathnul, hfile]
      by_cases hc20 : code2 = 0
      · obtain ⟨hne2, hlen2, hnul2⟩ := hok2 hc20
        have hsucc2 : stageSucceeded (256 * code2) = true := hs2.mpr hc20
        simp only [hsucc2, if_true, List.nil_append, getFileType, readPipe_whole out2 hne2 hlen2]
        apply next_tidy
        · rfl
        · rfl
        · simp only [printLine, cstr_inBuffer name hname, cstr_inBuffer out2 hnul2,
            cstr_inBuffer _ (nulFree_copyHash _)]
          unfold inBuffer
          rw [copyHash_inBuffer out _ hnul,
            specOutput_single_pos w ignorePrefix directory name hdiff
              (by rw [hmd5, hc0]) (by rw [hfile, hc20])]
          simp only [specLine, hmd5, hfile]
      · have hsucc2 : ¬ stageSucceeded (256 * code2) = true := fun h => hc20 (hs2.mp h)
        simp only [hsucc2, if_false, hfail2 hc20, List.append_nil]
        have : ¬ (256 * code2 = 0) := by omega
        apply next_tidy
        · rfl
        · rfl
        · rw [specOutput_single_neg w ignorePrefix directory name
            (Or.inr (by rw [hfile]; simpa using this))]
          simp
    · have hsucc : ¬ stageSucceeded (256 * code) = true := fun h => hc0 (hs1.mp h)
      simp only [hsucc, if_false, hfail hc0, List.append_nil]
      have : ¬ (256 * code = 0) := by omega
      apply next_tidy
      · rfl
      · rfl
      · rw [specOutput_single_neg w ignorePrefix directory name
          (Or.inl (by rw [hmd5]; simpa using this))]
        simp

theorem eachInOrder_tidy (w : World) (ignorePrefix : Option (List Int)) (directory : List Int)
    (hdir : nulFree directory) (entries : List (List Int)) :
    ∀ (out0 : List Int) (stg0 : List Stage),
      (∀ e ∈ entries, nulFree e ∧ Tidy w directory e) →
      ∃ stg, eachInOrder (loopBody w ignorePrefix directory) (entries.map inBuffer)
          ⟨[], [], out0, stg0⟩ =
        .next ⟨[], [], out0 ++ specOutput w ignorePrefix directory entries, stg⟩ := by
  induction entries with
  | nil => intro out0 stg0 _; exact ⟨stg0, by simp [eachInOrder, specOutput]⟩
  | cons e es ih =>
    intro out0 stg0 h
    obtain ⟨hnul, ht⟩ := h e (by simp)
    obtain ⟨stg1, h1⟩ := loopBody_tidy w ignorePrefix directory e out0 stg0 hdir hnul ht
    obtain ⟨stg2, h2⟩ := ih (out0 ++ specOutput w ignorePrefix directory [e]) stg1
      (fun x hx => h x (by simp [hx]))
    refine ⟨stg2, ?_⟩
    simp only [List.map_cons, eachInOrder, h1, h2]
    rw [specOutput_cons w ignorePrefix directory e es, List.append_assoc]

/-- What holds of C1: when the listing stage succeeds and the listing buffer is
made of the entries, every one of them tidy, `main` writes to standard output
exactly what the specification gives, and exits with `EXIT_SUCCESS`. -/
theorem main_stdout_of_tidy (w : World) (ignorePrefix : Option (List Int))
    (directory : List Int) (entries : List (List Int)) (size : Nat) (unread : List ReadResult)
    (hls : w.ls = .status 0)
    (hreads : getFileNames w.lsReads = .done ⟨listingOf entries, size⟩ unread)
    (hdir : nulFree directory)
    (hentries : ∀ e ∈ entries, 10 ∉ e ∧ nulFree e ∧ e.length < BUFLEN)
    (htidy : ∀ e ∈ entries, Tidy w directory e) :
    (main w ignorePrefix directory).stdout = specOutput w ignorePrefix directory entries ∧
      (main w ignorePrefix directory).stderr = [] ∧
      (main w ignorePrefix directory).ending = .exit EXIT_SUCCESS := by
  have hfuel : entries.length < (listingOf entries).length + 1 := by
    have := length_le_listingOf entries; omega
  have hloop := forEachName_entries (loopBody w ignorePrefix directory) entries []
    ⟨[], [], [], []⟩ ((listingOf entries).length + 1) hfuel hentries
  obtain ⟨stg, hrun⟩ := eachInOrder_tidy w ignorePrefix directory hdir entries [] []
    (fun e he => ⟨(hentries e he).2.1, htidy e he⟩)
  simp only [List.nil_append, List.length_nil] at hloop hrun
  rw [hrun] at hloop
  have hs : stageSucceeded 0 = true := by decide
  simp [main, hls, hs, hreads, hloop]

/-- The other way the same defect shows: in `noisyFailureWorld` the classification
stage of `a` exits with code 1 after writing `E` and a newline, which nobody
reads; the line printed for `b` then carries them in front of its own type. -/
theorem main_output_after_noisy_failure :
    (main noisyFailureWorld none [100]).stdout = [98, 32, 104, 32, 69, 10, 116, 10] ∧
      specOutput noisyFailureWorld none [100] [[97], [98]] = [98, 32, 104, 32, 116, 10] := by
  decide

/-! ## `main` on a listing that fills its chunks -/

/-- On every listing whose length is a multiple of `BUFLEN - 1`, written by an `ls`
whose wait status passes the stage test, `main` waits for ever in `getFileNames`:
it prints nothing and runs no stage. -/
theorem main_blocked_on_aligned_listing (w : World) (ignorePrefix : Option (List Int))
    (directory out : List Int) (status : Nat)
    (hls : w.ls = .status status) (hok : stageSucceeded status = true)
    (hreads : w.lsReads = pipeReads out) (hmul : out.length % (BUFLEN - 1) = 0) :
    main w ignorePrefix directory = ⟨[], [], [], .blocked⟩ := by
  obtain ⟨fn, hrun, _⟩ := getFileNamesLoop_pipe_aligned out.length out ⟨[], BUFLEN⟩
    (le_refl _) hmul (by simp)
  have hget : getFileNames w.lsReads =
      .blocked ⟨fn, BUFLEN + BUFLEN * (out.length / (BUFLEN - 1))⟩ := by
    rw [hreads]; unfold getFileNames pipeReads; exact hrun
  simp [main, hls, hok, hget, halted]

/-! ## The claims -/

set_option maxRecDepth 100000 in
/-- C1 at the failing input: in `longPathWorld` both paths have 165 characters,
so `md5sum` writes 200 bytes of which `getMD5hash` reads 199; the newline left in
the pipe is read in front of the hash of the next file, and the line printed for
`b` differs from the line the specification gives. -/
theorem main_output_differs_from_specOutput :
    (main longPathWorld none longDirectory).stdout =
        [97, 32] ++ List.replicate 32 48 ++ [32, 100, 97, 116, 97, 10] ++
          ([98, 32, 10] ++ List.replicate 32 48 ++ [32, 100, 97, 116, 97, 10]) ∧
      specOutput longPathWorld none longDirectory [[97], [98]] =
        [97, 32] ++ List.replicate 32 48 ++ [32, 100, 97, 116, 97, 10] ++
          ([98, 32] ++ List.replicate 32 48 ++ [32, 100, 97, 116, 97, 10]) ∧
      (main longPathWorld none longDirectory).stdout ≠
        specOutput longPathWorld none longDirectory [[97], [98]] := by
  decide

/-- C2 at the failing input: with the ignore prefix `0` and the name `P`, whose
characters 48 and 80 are 32 apart and are not the same letter, `prefixDiff`
returns 0 although the first character of the name is not equal to the prefix
under ASCII case-insensitive comparison. -/
theorem prefixDiff_zero_without_case_insensitive_match :
    prefixDiff (some [48]) (inBuffer [80]) = 0 ∧
      ¬ asciiCaseInsensitiveEq ([80].take [48].length) [48] := by
  decide

/-- C3: without an ignore prefix `prefixDiff` returns -1 for every array
`fileName`, and the body of the per-file loop never takes the `continue` of the
filter: it is `processFile` for every name. -/
theorem prefixDiff_without_prefix (w : World) (directory fileName : List Int) (st : State) :
    prefixDiff none fileName = -1 ∧
      loopBody w none directory fileName st = processFile w directory fileName st := by
  constructor
  · rfl
  · simp [loopBody, prefixDiff]

/-- C4: when the wait status of the listing child carries a non-zero exit code
(for a child that exited with `code`, the status is `256 * code`), `main` prints
the usage message on standard error, writes nothing to standard output, runs no
hashing and no classification stage, and exits with `EXIT_FAILURE`, which is not
0; this holds for every directory and every ignore prefix. -/
theorem main_usage_on_listing_failure (w : World) (ignorePrefix : Option (List Int))
    (directory : List Int) (code : Nat)
    (hpos : 0 < code) (hlt : code < 256) (hls : w.ls = .status (256 * code)) :
    main w ignorePrefix directory = ⟨[], [.usage], [], .exit EXIT_FAILURE⟩ ∧
      EXIT_FAILURE ≠ 0 := by
  have hstatus : stageSucceeded (256 * code) = false := by
    simp only [stageSucceeded, WEXITSTATUS_exited code hlt, EXIT_SUCCESS]
    simp; omega
  constructor
  · simp [main, hls, hstatus, usage]
  · decide

/-- Witness of C4: `ls` exits with code 2, as it does for a missing directory. -/
theorem main_usage_on_listing_failure_witness :
    main ⟨.status (256 * 2), [], fun _ => (.status 0, []), fun _ => (.status 0, [])⟩
        (some [116]) [100] = ⟨[], [.usage], [], .exit EXIT_FAILURE⟩ ∧
      EXIT_FAILURE ≠ 0 :=
  main_usage_on_listing_failure
    ⟨.status (256 * 2), [], fun _ => (.status 0, []), fun _ => (.status 0, [])⟩
    (some [116]) [100] 2 (by decide) (by decide) rfl

set_option maxRecDepth 100000 in
/-- C5 at the failing input: `ls` has written the 199 bytes of `alignedListing`, one
full chunk. The first read of `getFileNames` returns them all, the loop asks for
a second read, and no read result follows because the parent keeps `pipe_ls[1]`
open: `getFileNames` does not return, with the whole listing in `fileNames` and
the capacity grown to `2 * BUFLEN`, and `main` prints nothing and runs no stage. -/
theorem getFileNames_blocks_on_chunk_aligned_listing :
    alignedListing.length = BUFLEN - 1 ∧
      pipeReads alignedListing = [.bytes alignedListing] ∧
      getFileNames (pipeReads alignedListing) = .blocked ⟨alignedListing, 2 * BUFLEN⟩ ∧
      main alignedWorld none [100] = ⟨[], [], [], .blocked⟩ := by
  decide

/-- C6: for every sequence of read results that starts with full NUL-free chunks
of `BUFLEN - 1` bytes followed by a NUL-free chunk of fewer bytes, `getFileNames`
leaves its loop right behind that first short chunk (the later read results are
not asked for) and `fileNames` is the concatenation, in read order, of the chunks
up to and including it. Consequently a NUL-free stream whose length is not a
multiple of `BUFLEN - 1`, delivered `BUFLEN - 1` bytes at a time, is accumulated
whole. -/
theorem getFileNames_concatenates_until_short_read
    (fulls : List (List Int)) (short : List Int) (rest : List ReadResult) (out : List Int)
    (hfull : ∀ c ∈ fulls, c.length = BUFLEN - 1 ∧ nulFree c)
    (hshort : short.length < BUFLEN - 1) (hnul : nulFree short)
    (hout : nulFree out) (hmul : out.length % (BUFLEN - 1) ≠ 0) :
    getFileNames (fulls.map .bytes ++ .bytes short :: rest) =
        .done ⟨fulls.flatten ++ short, BUFLEN * (fulls.length + 1)⟩ rest ∧
      getFileNames (streamReads out) =
        .done ⟨out, BUFLEN * (out.length / (BUFLEN - 1) + 1)⟩ [.bytes []] := by
  have hb : BUFLEN = 200 := rfl
  constructor
  · unfold getFileNames
    rw [getFileNamesLoop_fulls fulls _ _ hfull (by simp),
      getFileNamesLoop_stop _ _ _ _ (getFileNamesPass_short _ short hshort hnul
        (by simp only [List.nil_append, join_fulls_length fulls hfull]; rw [hb]; omega))]
    simp only [List.nil_append]
    congr 2
    ring
  · obtain ⟨fn, hrun, hfn⟩ := getFileNamesLoop_stream out.length out ⟨[], BUFLEN⟩
      (le_refl _) (by simp)
    unfold getFileNames streamReads
    rw [hrun, hfn hout, if_neg hmul]
    simp only [List.nil_append]
    congr 2
    ring

/-- Witness of C6: one full chunk of `a`, the short chunk `b\n`, a further read
that is never asked for; and the two-byte stream `a\n`. -/
theorem getFileNames_concatenates_until_short_read_witness :
    getFileNames ([List.replicate 199 97].map .bytes ++ .bytes [98, 10] :: [.bytes [99]]) =
        .done ⟨[List.replicate 199 97].flatten ++ [98, 10], BUFLEN * (1 + 1)⟩ [.bytes [99]] ∧
      getFileNames (streamReads [97, 10]) =
        .done ⟨[97, 10], BUFLEN * (2 / (BUFLEN - 1) + 1)⟩ [.bytes []] :=
  getFileNames_concatenates_until_short_read [List.replicate 199 97] [98, 10] [.bytes [99]]
    [97, 10]
    (fun c hc => by rw [List.mem_singleton.mp hc]; exact full_replicate 97 (by decide))
    (by decide) (by decide) (by decide) (by decide)

/-- C7: for a listing buffer made of entries each followed by a newline, every
entry free of newline and NUL and shorter than `BUFLEN`, the per-file loop of
`main` runs its body on exactly the entries, each once, in buffer order, with
the newline removed, and ends at the terminating NUL behind the last newline.
This holds for every body, whether a pass ends normally or takes `continue`
(both are `Step.next`); only a body that stops the program ends the loop early.
In particular the names seen by a body that only records them are the entries. -/
theorem forEachName_splits_listing {σ : Type} (body : List Int → σ → Step σ)
    (entries : List (List Int)) (s : σ)
    (h : ∀ e ∈ entries, 10 ∉ e ∧ nulFree e ∧ e.length < BUFLEN) :
    (entries.map inBuffer).map cstr = entries ∧
      forEachName body (listingOf entries) ((listingOf entries).length + 1) 0 s =
        (match eachInOrder body (entries.map inBuffer) s with
          | .next s' => .finished (listingOf entries).length s'
          | .halt hh s' => .halted hh s') ∧
      forEachName (fun fileName seen => Step.next (seen ++ [cstr fileName]))
          (listingOf entries) ((listingOf entries).length + 1) 0 [] =
        .finished (listingOf entries).length entries := by
  have hnames : (entries.map inBuffer).map cstr = entries := by
    rw [List.map_map]
    conv_rhs => rw [← List.map_id entries]
    apply List.map_congr_left
    intro e he
    exact cstr_inBuffer e (h e he).2.1
  have hfuel : entries.length < (listingOf entries).length + 1 := by
    have := length_le_listingOf entries; omega
  have hloop : ∀ (τ : Type) (b : List Int → τ → Step τ) (t : τ),
      forEachName b (listingOf entries) ((listingOf entries).length + 1) 0 t =
        (match eachInOrder b (entries.map inBuffer) t with
          | .next t' => .finished (listingOf entries).length t'
          | .halt hh t' => .halted hh t') := by
    intro τ b t
    have := forEachName_entries b entries [] t ((listingOf entries).length + 1) hfuel h
    simpa using this
  refine ⟨hnames, hloop σ body s, ?_⟩
  rw [hloop, eachInOrder_record, hnames]
  simp

/-- Witness of C7: the listing buffer `a\n\nbc\n`, with an empty entry. -/
theorem forEachName_splits_listing_witness :
    ([[97], [], [98, 99]].map inBuffer).map cstr = [[97], [], [98, 99]] ∧
      forEachName (fun fileName seen => Step.next (seen ++ [cstr fileName]))
          (listingOf [[97], [], [98, 99]]) ((listingOf [[97], [], [98, 99]]).length + 1) 0 [] =
        (match eachInOrder (fun fileName seen => Step.next (seen ++ [cstr fileName]))
            ([[97], [], [98, 99]].map inBuffer) [] with
          | .next s' => .finished (listingOf [[97], [], [98, 99]]).length s'
          | .halt hh s' => .halted hh s') ∧
      forEachName (fun fileName seen => Step.next (seen ++ [cstr fileName]))
          (listingOf [[97], [], [98, 99]]) ((listingOf [[97], [], [98, 99]]).length + 1) 0 [] =
        .finished (listingOf [[97], [], [98, 99]]).length [[97], [], [98, 99]] :=
  forEachName_splits_listing (fun fileName seen => Step.next (seen ++ [cstr fileName]))
    [[97], [], [98, 99]] [] (by decide)

/-- C8 at the failing input: the wait status 9 of a child terminated by signal 9
has exit-code bits 0, so the stage test succeeds although the child did not exit
normally; in `killedWorld` the per-file body goes on behind the killed `md5sum`,
runs the classification stage and prints a line, and in `silentKillWorld`, where
the killed child wrote nothing, it goes on into `getMD5hash` and waits there for
ever. -/
theorem stage_succeeds_for_signalled_child :
    WTERMSIG 9 = 9 ∧ WEXITSTATUS 9 = 0 ∧ stageSucceeded 9 = true ∧
      processFile killedWorld [100] (inBuffer [97]) ⟨[], [], [], []⟩ =
        .next ⟨[], [], [97, 32, 104, 32, 116, 10],
          [.md5sum [100, 47, 97], .file [100, 47, 97]]⟩ ∧
      processFile silentKillWorld [100] (inBuffer [97]) ⟨[], [], [], []⟩ =
        .halt .blocked ⟨[], [], [], [.md5sum [100, 47, 97]]⟩ := by
  decide

/-- C9: no `strcat` of `getFileNames` writes behind the `size_fN` bytes of
`fileNames`, whatever reads of at most `BUFLEN - 1` bytes deliver. Precisely,
after `k` reads that each returned `BUFLEN - 1` NUL-free bytes the loop is in the
state with capacity `BUFLEN * (k + 1)` and content length `(BUFLEN - 1) * k`, so
that the content, a next chunk of at most `BUFLEN - 1` bytes and the terminating
NUL fit. -/
theorem getFileNames_capacity_invariant
    (reads : List ReadResult) (fulls : List (List Int)) (chunk : List Int)
    (rest : List ReadResult)
    (hreads : ∀ c, ReadResult.bytes c ∈ reads → c.length ≤ BUFLEN - 1)
    (hfull : ∀ c ∈ fulls, c.length = BUFLEN - 1 ∧ nulFree c)
    (hlen : chunk.length ≤ BUFLEN - 1) :
    getFileNames reads ≠ .overflow ∧
      getFileNames (fulls.map .bytes ++ rest) =
        getFileNamesLoop ⟨fulls.flatten, BUFLEN * (fulls.length + 1)⟩ rest ∧
      fulls.flatten.length = (BUFLEN - 1) * fulls.length ∧
      fulls.flatten.length + chunk.length + 1 ≤ BUFLEN * (fulls.length + 1) ∧
      (BUFLEN - 1) * (fulls.length + 1) + 1 ≤ BUFLEN * (fulls.length + 1) ∧
      getFileNamesPass ⟨fulls.flatten, BUFLEN * (fulls.length + 1)⟩ (.bytes chunk) ≠ .overflow := by
  have hb : BUFLEN = 200 := rfl
  have hflat := join_fulls_length fulls hfull
  refine ⟨getFileNamesLoop_no_overflow reads _ hreads (by simp), ?_, hflat, ?_, ?_, ?_⟩
  · unfold getFileNames
    rw [getFileNamesLoop_fulls fulls _ _ hfull (by simp)]
    simp only [List.nil_append]
    congr 2
    ring
  · rw [hflat]; rw [hb] at hlen ⊢; omega
  · rw [hb]; omega
  · have hcap : fulls.flatten.length + BUFLEN ≤ BUFLEN * (fulls.length + 1) := by
      rw [hflat, hb]; omega
    by_cases hc : chunk.length = BUFLEN - 1
    · rw [getFileNamesPass_bytes_full _ chunk hc hcap]; simp
    · rw [getFileNamesPass_bytes_short _ chunk (by omega) hcap]; simp

/-- Witness of C9: two full reads behind one another, then a chunk of two bytes. -/
theorem getFileNames_capacity_invariant_witness :
    getFileNames [.bytes (List.replicate 199 97), .bytes [98, 10]] ≠ .overflow ∧
      getFileNames ([List.replicate 199 97, List.replicate 199 98].map .bytes ++ []) =
        getFileNamesLoop ⟨[List.replicate 199 97, List.replicate 199 98].flatten,
          BUFLEN * ([List.replicate 199 (97 : Int), List.replicate 199 98].length + 1)⟩ [] ∧
      [List.replicate 199 (97 : Int), List.replicate 199 98].flatten.length =
        (BUFLEN - 1) * [List.replicate 199 (97 : Int), List.replicate 199 98].length ∧
      [List.replicate 199 (97 : Int), List.replicate 199 98].flatten.length + [(99 : Int), 10].length + 1
        ≤ BUFLEN * ([List.replicate 199 (97 : Int), List.replicate 199 98].length + 1) ∧
      (BUFLEN - 1) * ([List.replicate 199 (97 : Int), List.replicate 199 98].length + 1) + 1
        ≤ BUFLEN * ([List.replicate 199 (97 : Int), List.replicate 199 98].length + 1) ∧
      getFileNamesPass ⟨[List.replicate 199 97, List.replicate 199 98].flatten,
          BUFLEN * ([List.replicate 199 (97 : Int), List.replicate 199 98].length + 1)⟩
        (.bytes [99, 10]) ≠ .overflow :=
  getFileNames_capacity_invariant [.bytes (List.replicate 199 97), .bytes [98, 10]]
    [List.replicate 199 97, List.replicate 199 98] [99, 10] []
    (fun c hc => by
      rcases List.mem_cons.mp hc with h | h
      · rw [ReadResult.bytes.inj h, List.length_replicate]; decide
      · rw [ReadResult.bytes.inj (List.mem_singleton.mp h)]; decide)
    (fun c hc => by
      rcases List.mem_cons.mp hc with h | h
      · rw [h]; exact full_replicate 97 (by decide)
      · rw [List.mem_singleton.mp h]; exact full_replicate 98 (by decide))
    (by decide)

/-- C10: for an ignore prefix of fewer than `BUFLEN` characters, all of them ASCII
(1 to 127) and none the space, and a name strictly shorter than it, held in the
zero-filled array `fileName`, `prefixDiff` reads inside the array and returns at
least 1, so the body of the per-file loop does not take the `continue` of the
filter. -/
theorem prefixDiff_shorter_name (w : World) (directory : List Int) (st : State)
    (ignorePrefix name : List Int)
    (hlen : ignorePrefix.length < BUFLEN)
    (hascii : ∀ c ∈ ignorePrefix, 1 ≤ c ∧ c ≤ 127 ∧ c ≠ 32)
    (hshort : name.length < ignorePrefix.length) :
    ignorePrefix.length ≤ (inBuffer name).length ∧
      1 ≤ prefixDiff (some ignorePrefix) (inBuffer name) ∧
      loopBody w (some ignorePrefix) directory (inBuffer name) st =
        processFile w directory (inBuffer name) st := by
  have hsize : ignorePrefix.length ≤ (inBuffer name).length := by
    simp only [inBuffer, zeros, List.length_append, List.length_replicate]; omega
  have hsplit : ignorePrefix = ignorePrefix.take name.length ++
      ignorePrefix.getD name.length 0 :: ignorePrefix.drop (name.length + 1) := by
    rw [List.getD_eq_getElem _ _ hshort]
    conv_lhs => rw [← List.take_append_drop name.length ignorePrefix]
    rw [List.drop_eq_getElem_cons hshort]
  have hmem : ignorePrefix.getD name.length 0 ∈ ignorePrefix := by
    rw [List.getD_eq_getElem _ _ hshort]; exact List.getElem_mem _
  have hp := hascii _ hmem
  have hpre : nulFree (ignorePrefix.take name.length) := fun c hc => by
    have := hascii c (List.mem_of_mem_take hc); omega
  have htl : (ignorePrefix.take name.length).length = name.length := by
    simp only [List.length_take]; omega
  have hpos : 1 ≤ prefixDiff (some ignorePrefix) (inBuffer name) := by
    unfold prefixDiff
    simp only
    rw [hsplit]
    have := prefixDiffLoop_counts (inBuffer name) (ignorePrefix.take name.length)
      (ignorePrefix.getD name.length 0) (ignorePrefix.drop (name.length + 1)) 0 0 hpre
      (by omega)
      (by
        rw [htl, Nat.zero_add]
        unfold inBuffer
        rw [getD_inBuffer_length]
        omega)
    simpa using this
  refine ⟨hsize, hpos, ?_⟩
  have hne : prefixDiff (some ignorePrefix) (inBuffer name) ≠ 0 := by omega
  simp [loopBody, hne]

/-- Witness of C10: the ignore prefix `tmp` and the name `tm`. -/
theorem prefixDiff_shorter_name_witness :
    [(116 : Int), 109, 112].length ≤ (inBuffer [116, 109]).length ∧
      1 ≤ prefixDiff (some [116, 109, 112]) (inBuffer [116, 109]) ∧
      loopBody ⟨.status 0, [], fun _ => (.status 0, []), fun _ => (.status 0, [])⟩
          (some [116, 109, 112]) [100] (inBuffer [116, 109]) ⟨[], [], [], []⟩ =
        processFile ⟨.status 0, [], fun _ => (.status 0, []), fun _ => (.status 0, [])⟩
          [100] (inBuffer [116, 109]) ⟨[], [], [], []⟩ :=
  prefixDiff_shorter_name ⟨.status 0, [], fun _ => (.status 0, []), fun _ => (.status 0, [])⟩
    [100] ⟨[], [], [], []⟩ [116, 109, 112] [116, 109] (by decide) (by decide) (by decide)

end HashSum
